import Mathlib

/-!
A verification development for the `rust-efsm` library.

The library implements extended finite state machines (EFSMs) whose
transitions carry an interval bound over the register domain `D`, a concrete
update function and a symbolic interval lift.  This file gives a shallow
embedding of the core data types and algorithms:

* `Bound` — inclusive intervals with optional endpoints (`bound.rs`,
  `TransitionBound` in `lib.rs` is the same type with the same method bodies);
* `Machine`, `Transition`, `State` — the machine model and the executor
  (`machine.rs` / `lib.rs`);
* the reachability analyzer `find_non_empty` with its arena of `PathNode`s
  (`machine.rs` / `lib.rs`), embedded with an explicit fuel whose sufficiency
  is proved;
* the two-sided `Monitor` and its `PartialMonitor`s (`monitor.rs`).

Rust `HashMap`s keyed by location are embedded as association lists (the code
never depends on hash iteration order for the properties below), `Vec` stacks
as lists with the head as the top of the stack, and the `Update` trait object
as a pair of function fields.
-/

namespace Efsm

/-- The contract of Rust's `num::Bounded` together with the order facts the
    library relies on: `min_value`/`max_value` are the least/greatest elements
    of `D`. -/
class BoundedDom (D : Type) [LinearOrder D] where
  min_value : D
  max_value : D
  min_le : ∀ d : D, min_value ≤ d
  le_max : ∀ d : D, d ≤ max_value

/-- `Bound<D>` from `bound.rs` (identical to `TransitionBound<D>` in `lib.rs`):
    an inclusive interval where `none` means unbounded in that direction. -/
structure Bound (D : Type) where
  lower : Option D
  upper : Option D
deriving DecidableEq, Repr

variable {D : Type} [LinearOrder D] [BoundedDom D]

/-- `Bound::unbounded`. -/
def Bound.unbounded : Bound D := ⟨none, none⟩

/-- `Bound::as_explicit`: replace `None` endpoints by `min_value`/`max_value`. -/
def Bound.as_explicit (b : Bound D) : D × D :=
  (b.lower.getD BoundedDom.min_value, b.upper.getD BoundedDom.max_value)

/-- `Bound::from_explicit`: collapse extreme endpoints back to `None`. -/
def Bound.from_explicit (bound : D × D) : Bound D :=
  { lower := (some bound.1).filter (fun b => !(b = BoundedDom.min_value : Bool)),
    upper := (some bound.2).filter (fun b => !(b = BoundedDom.max_value : Bool)) }

/-- `Bound::intersect`: inclusive intersection, `none` when the operands are
    disjoint. -/
def Bound.intersect (a other : Bound D) : Option (Bound D) :=
  let s := a.as_explicit
  let o := other.as_explicit
  if s.1 > o.2 ∨ s.2 < o.1 then
    none
  else
    some (Bound.from_explicit (max s.1 o.1, min s.2 o.2))

/-- `Bound::make_contain` (named `union_with` in `lib.rs`): grow `self` so that
    it contains the whole of `rhs`.  The Rust method mutates `self`; here the
    grown interval is returned. -/
def Bound.make_contain (a rhs : Bound D) : Bound D :=
  let l := a.as_explicit
  let r := rhs.as_explicit
  { lower := some (min l.1 r.1), upper := some (max l.2 r.2) }

/-- `TransitionBound::union_with` in `lib.rs`; same body as
    `Bound::make_contain`. -/
def Bound.union_with (a rhs : Bound D) : Bound D := a.make_contain rhs

/-- `Bound::contains`: point membership. -/
def Bound.contains (a : Bound D) (data : D) : Bool :=
  decide (a.as_explicit.1 ≤ data) && decide (data ≤ a.as_explicit.2)

/-- `Bound::contains_interval`: interval containment. -/
def Bound.contains_interval (a rhs : Bound D) : Bool :=
  decide (a.as_explicit.1 ≤ rhs.as_explicit.1) &&
    decide (a.as_explicit.2 ≥ rhs.as_explicit.2)

/-- The canonical-form predicate of the spec: extreme endpoints are stored as
    `none`.  Stated as the round-trip equation through the explicit form. -/
def Bound.Canonical (a : Bound D) : Prop :=
  Bound.from_explicit a.as_explicit = a

/-- A non-empty interval: explicit lower endpoint at most the explicit upper
    endpoint. -/
def Bound.Valid (a : Bound D) : Prop :=
  a.as_explicit.1 ≤ a.as_explicit.2

instance (a : Bound D) : Decidable a.Canonical :=
  inferInstanceAs (Decidable (_ = _))

instance (a : Bound D) : Decidable a.Valid :=
  inferInstanceAs (Decidable (_ ≤ _))

/-- A `Transition` (`machine.rs`): target location, enable predicate, interval
    bound, and the two capabilities of the `Update` trait object flattened into
    function fields. -/
structure Transition (D I : Type) where
  to_location : String
  enable : D → I → Bool
  bound : Bound D
  update : D → I → D
  update_interval : Bound D → Bound D

/-- A configuration `State` (`machine.rs`): a location paired with a register
    value. -/
structure State (D : Type) where
  location : String
  data : D
deriving DecidableEq, Repr

/-- A `Machine` (`machine.rs`): the transition map keyed by source location and
    the accepting set.  `HashMap`/`HashSet` are embedded as lists; the builder
    produces one entry per source location. -/
structure Machine (D I : Type) where
  locations : List (String × List (Transition D I))
  accepting : List String

/-- `Machine::transition`: one frontier step.  Each configuration is expanded
    through its location's outgoing transitions in insertion order; enabled
    transitions append their successor configuration. -/
def Machine.transition (m : Machine D I) (i : I) : List (State D) → List (State D)
  | [] => []
  | s :: rest =>
      (match List.lookup s.location m.locations with
       | none => []
       | some ts =>
           ts.foldr
             (fun t acc =>
               if t.enable s.data i then
                 ⟨t.to_location, t.update s.data i⟩ :: acc
               else acc)
             []) ++ m.transition i rest

/-- `Machine::exec`: run the frontier over the whole input word, then `OR`
    "is accepting" over the surviving configurations. -/
def Machine.exec (m : Machine D I) (location : String) (data : D)
    (input : List I) : Bool :=
  let final := input.foldl (fun states i => m.transition i states)
    [⟨location, data⟩]
  final.foldl (fun acc s => acc || m.accepting.contains s.location) false

/-- `Machine::complement`: replace the accepting set by the source locations
    (keys of the transition map) that are not accepting.  The Rust function
    returns `Ok` unconditionally. -/
def Machine.complement (m : Machine D I) : Machine D I :=
  { m with
    accepting :=
      (m.locations.map Prod.fst).filter (fun l => !(m.accepting.contains l)) }

/-- The set of locations "mentioned in the transition graph" in the words of
    the spec: sources and targets of transitions.  This definition follows the
    spec's words (not the code) and exists only to compare `complement`
    against the specified accepting set. -/
def Machine.spec_mentioned (m : Machine D I) : List String :=
  m.locations.map Prod.fst ++
    (m.locations.map (fun e => e.2.map (fun t => t.to_location))).flatten

/-- A search-arena node of the reachability analyzer (`PathNode` in
    `machine.rs`).  `parent` stores the index of the parent node together with
    the `post` interval annotated on the edge. -/
structure PathNode (D : Type) where
  idx : Nat
  parent : Option (Nat × Bound D)
  location : String
  interval : Bound D
deriving DecidableEq, Repr

/-- A placeholder node used for the (never reachable under the arena
    invariants) out-of-range arena accesses. -/
def dummyNode : PathNode D := ⟨0, none, "", Bound.unbounded⟩

/-- Arena access `nodes[k]`. -/
def getNode (nodes : List (PathNode D)) (k : Nat) : PathNode D :=
  nodes.getD k dummyNode

/-- The ascending loop of `PathNode::path_to`: collect indices from `k` up to
    the root by following parent links.  Parent indices strictly decrease in
    any arena the analyzer builds, so fuel `k` always reaches the root; the
    fuel only makes the ascent structurally recursive. -/
def pathAscend (nodes : List (PathNode D)) : Nat → Nat → List Nat
  | fuel, k =>
    match (getNode nodes k).parent with
    | none => [k]
    | some (p, _) =>
      match fuel with
      | 0 => [k]
      | f + 1 => k :: pathAscend nodes f p

/-- `PathNode::path_to`: the indices from the root down to node `k`. -/
def pathTo (nodes : List (PathNode D)) (k : Nat) : List Nat :=
  (pathAscend nodes k k).reverse

/-- The `(parent location, post interval)` pairs along the path to node `k`:
    the `path_iter.filter_map(..).map(..)` pipeline inside `find_non_empty`. -/
def pathEdges (nodes : List (PathNode D)) (k : Nat) : List (String × Bound D) :=
  (pathTo nodes k).filterMap
    (fun j => ((getNode nodes j).parent).map
      (fun pb => ((getNode nodes pb.1).location, pb.2)))

/-- `safe.entry(l).and_modify(|b| b.union_with(&v)).or_insert(v)` on the
    association-list embedding of the reachability map. -/
def updateSafe : List (String × Bound D) → String → Bound D →
    List (String × Bound D)
  | [], l, v => [(l, v)]
  | (l', b') :: rest, l, v =>
      if l' = l then (l', b'.union_with v) :: rest
      else (l', b') :: updateSafe rest l v

/-- The marking phase of `find_non_empty`: widen `safe` along every parent
    edge of the path to node `k`. -/
def markPath (nodes : List (PathNode D)) (k : Nat)
    (safe : List (String × Bound D)) : List (String × Bound D) :=
  (pathEdges nodes k).foldl (fun s lb => updateSafe s lb.1 lb.2) safe

/-- The expansion loop of `find_non_empty`: for each outgoing transition in
    insertion order, intersect the current interval with the transition bound
    and, when non-empty, append a child node to the arena and push its index
    on the stack. -/
def expand (idx : Nat) (cur : Bound D) :
    List (Transition D I) → List (PathNode D) → List Nat →
    List (PathNode D) × List Nat
  | [], ns, st => (ns, st)
  | t :: ts, ns, st =>
      match cur.intersect t.bound with
      | none => expand idx cur ts ns st
      | some post =>
          expand idx cur ts
            (ns ++ [⟨ns.length, some (idx, post), t.to_location,
                     t.update_interval post⟩])
            (ns.length :: st)

/-- The full state of the analyzer's search loop. -/
structure SearchState (D : Type) where
  nodes : List (PathNode D)
  stack : List Nat
  safe : List (String × Bound D)
deriving DecidableEq, Repr

/-- The hit test of one search iteration: when the popped node is accepting,
    or its interval is already inside the known-safe interval of its location,
    mark the whole path to the node in `safe`. -/
def processSafe (m : Machine D I) (S : SearchState D) (idx : Nat) :
    List (String × Bound D) :=
  if (match S.safe.lookup (getNode S.nodes idx).location with
      | some bound => bound.contains_interval (getNode S.nodes idx).interval
      | none => false) ||
      m.accepting.contains (getNode S.nodes idx).location then
    markPath S.nodes idx S.safe
  else S.safe

/-- One iteration of the search loop after popping index `idx` (the remaining
    stack is `rest`): the hit test with marking, followed by expansion. -/
def processOne (m : Machine D I) (S : SearchState D) (idx : Nat)
    (rest : List Nat) : SearchState D :=
  match List.lookup (getNode S.nodes idx).location m.locations with
  | none => ⟨S.nodes, rest, processSafe m S idx⟩
  | some ts =>
      ⟨(expand idx (getNode S.nodes idx).interval ts S.nodes rest).1,
       (expand idx (getNode S.nodes idx).interval ts S.nodes rest).2,
       processSafe m S idx⟩

/-- The analyzer's node budget, `MAX_NODES` in the source. -/
def MAX_NODES : Nat := 100

/-- The `while nodes.len() <= MAX_NODES` search loop, with explicit fuel.
    `go_fuel_indep` below proves that fuel `102` is enough for every machine,
    so this embeds the (unbounded) Rust loop faithfully. -/
def go (m : Machine D I) : Nat → SearchState D → SearchState D
  | 0, S => S
  | fuel + 1, S =>
      if S.nodes.length > MAX_NODES then S
      else
        match S.stack with
        | [] => S
        | idx :: rest => go m fuel (processOne m S idx rest)

/-- The initial search state: the seeded `safe` map (every accepting location
    mapped to the unbounded interval), the arena holding the root node, and
    the stack holding the root index. -/
def initState (m : Machine D I) (location : String) : SearchState D :=
  { nodes := [⟨0, none, location, Bound.unbounded⟩],
    stack := [0],
    safe := m.accepting.map (fun l => (l, Bound.unbounded)) }

/-- `Machine::find_non_empty`: the reachability map of the search started at
    `location`.  The Rust function wraps the map in `Ok` unconditionally. -/
def Machine.find_non_empty (m : Machine D I) (location : String) :
    List (String × Bound D) :=
  (go m 102 (initState m location)).safe

/-- `MonitorError` (`monitor.rs`).  The Rust variants carry diagnostic
    strings; the payloads are not modelled. -/
inductive MonitorError where
  | TransitionFailed
  | ConstructionFailed
deriving DecidableEq, Repr

/-- A `PartialMonitor` (`monitor.rs`): the current concrete state, the machine
    and the reachability map computed at construction time. -/
structure PartialMonitor (D I : Type) where
  state : State D
  machine : Machine D I
  non_empty_states : List (String × Bound D)

/-- `PartialMonitor::next`.  The Rust method mutates `self.state`; here the
    (possibly updated) monitor is returned next to the verdict. -/
def PartialMonitor.next (pm : PartialMonitor D I) (input : I) :
    Except MonitorError Bool × PartialMonitor D I :=
  match pm.machine.transition input [pm.state] with
  | [s] =>
      match pm.non_empty_states.lookup s.location with
      | some bound =>
          if bound.contains s.data then
            (Except.ok false, { pm with state := s })
          else (Except.ok true, pm)
      | none => (Except.ok true, pm)
  | _ => (Except.error MonitorError.TransitionFailed, pm)

/-- `PartialMonitor::falsify_from`: a partial monitor on the machine itself.
    (`find_non_empty` and the Rust constructor never fail.) -/
def PartialMonitor.falsify_from (location : String) (data : D)
    (machine : Machine D I) : PartialMonitor D I :=
  { state := ⟨location, data⟩,
    machine := machine,
    non_empty_states := machine.find_non_empty location }

/-- `PartialMonitor::prove_from`: a partial monitor on the complement
    machine. -/
def PartialMonitor.prove_from (location : String) (data : D)
    (machine : Machine D I) : PartialMonitor D I :=
  PartialMonitor.falsify_from location data machine.complement

/-- A two-sided `Monitor` (`monitor.rs`). -/
structure Monitor (D I : Type) where
  prover : PartialMonitor D I
  falsifier : PartialMonitor D I

/-- `Monitor::new`. -/
def Monitor.new (location : String) (data : D) (machine : Machine D I) :
    Monitor D I :=
  { prover := PartialMonitor.prove_from location data machine,
    falsifier := PartialMonitor.falsify_from location data machine }

/-- `Monitor::next`: consult the prover first; on `Ok(true)` commit
    `Some(true)` without consulting the falsifier; otherwise consult the
    falsifier; errors propagate (`?`). -/
def Monitor.next (mon : Monitor D I) (input : I) :
    Except MonitorError (Option Bool) × Monitor D I :=
  match mon.prover.next input with
  | (Except.error e, p') => (Except.error e, ⟨p', mon.falsifier⟩)
  | (Except.ok true, p') => (Except.ok (some true), ⟨p', mon.falsifier⟩)
  | (Except.ok false, p') =>
      match mon.falsifier.next input with
      | (Except.error e, f') => (Except.error e, ⟨p', f'⟩)
      | (Except.ok true, f') => (Except.ok (some false), ⟨p', f'⟩)
      | (Except.ok false, f') => (Except.ok none, ⟨p', f'⟩)

/-! ### Concrete instances used by witnesses and counterexamples -/

instance : BoundedDom (Fin 2) :=
  ⟨0, 1, fun d => Fin.zero_le d, fun d => Fin.le_last d⟩

instance : BoundedDom (Fin 3) :=
  ⟨0, 2, fun d => Fin.zero_le d, fun d => Fin.le_last d⟩

instance : BoundedDom (Fin 4) :=
  ⟨0, 3, fun d => Fin.zero_le d, fun d => Fin.le_last d⟩

/-- A transition over `Fin 2` registers and `Unit` inputs with no guard, the
    identity update and the identity interval lift. -/
def idTransition (to_loc : String) : Transition (Fin 2) Unit :=
  { to_location := to_loc,
    enable := fun _ _ => true,
    bound := Bound.unbounded,
    update := fun d _ => d,
    update_interval := fun b => b }

/-- The machine of the C1 counterexample: a self-loop on `l0` explored before
    the transition to the accepting location `acc`, so the depth-first search
    spends its whole node budget on the loop. -/
def mCex : Machine (Fin 2) Unit :=
  { locations := [("l0", [idTransition "acc", idTransition "l0"])],
    accepting := ["acc"] }

/-- A machine with no transitions and accepting location `acc`. -/
def mTiny : Machine (Fin 2) Unit :=
  { locations := [],
    accepting := ["acc"] }

/-- The C2 counterexample machine: location `b` appears only as the target of
    a transition, never as a source. -/
def mTargetOnly : Machine (Fin 2) Unit :=
  { locations := [("a", [idTransition "b"])],
    accepting := [] }

/-- The atomic propositions of the "not spawn until init" example. -/
inductive Ap where
  | Init
  | Spawn
  | Other
deriving DecidableEq, Repr

/-- Scenario S2, built exactly like `examples/not_spawn_until_init.rs`: one
    accepting location `Accept` with a boolean register, self-loops on `Other`
    (identity update), on `Init` (set the register), and on `Spawn` enabled
    only when the register is set. -/
def s2Machine : Machine Bool Ap :=
  { locations :=
      [("Accept",
        [{ to_location := "Accept",
           enable := fun _ i => i == Ap.Other,
           bound := Bound.unbounded,
           update := fun d _ => d,
           update_interval := fun b => b },
         { to_location := "Accept",
           enable := fun _ i => i == Ap.Init,
           bound := Bound.unbounded,
           update := fun _ _ => true,
           update_interval := fun b => b },
         { to_location := "Accept",
           enable := fun is_init i => i == Ap.Spawn && is_init,
           bound := Bound.unbounded,
           update := fun _ _ => true,
           update_interval := fun b => b }])],
    accepting := ["Accept"] }

/-- A one-location machine with a guarded self-loop, used to build concrete
    partial monitors. -/
def mLoop : Machine (Fin 2) Unit :=
  { locations := [("l", [idTransition "l"])],
    accepting := ["l"] }

/-- A partial monitor whose `next` commits (`Ok(true)`): its reachability map
    is empty, so the successor is outside the map. -/
def pmCommit : PartialMonitor (Fin 2) Unit :=
  { state := ⟨"l", 0⟩, machine := mLoop, non_empty_states := [] }

/-- A partial monitor whose `next` is inconclusive (`Ok(false)`): the
    successor stays inside the mapped unbounded interval. -/
def pmStay : PartialMonitor (Fin 2) Unit :=
  { state := ⟨"l", 0⟩, machine := mLoop,
    non_empty_states := [("l", Bound.unbounded)] }

/-- A partial monitor whose `next` fails: its location has no outgoing
    transition, so the successor frontier is empty. -/
def pmFail : PartialMonitor (Fin 2) Unit :=
  { state := ⟨"x", 0⟩, machine := mTiny, non_empty_states := [] }

/-- A monitor whose prover and falsifier would both commit on the next
    input. -/
def monBoth : Monitor (Fin 2) Unit :=
  { prover := pmCommit, falsifier := pmCommit }

/-- Point coverage by the reachability map: the location has an entry whose
    interval contains the value. -/
def Covered (safe : List (String × Bound D)) (l : String) (d : D) : Prop :=
  ∃ b, safe.lookup l = some b ∧ b.contains d = true

/-- The seeded-accepting invariant of the reachability map: every accepting
    location has an entry containing the whole domain. -/
def AccInv (acc : List String) (safe : List (String × Bound D)) : Prop :=
  ∀ l, acc.contains l = true →
    ∃ b, safe.lookup l = some b ∧ ∀ d, b.contains d = true

/-- Arena well-formedness: every node records its own index and parent
    indices strictly decrease. -/
def NodesWF (nodes : List (PathNode D)) : Prop :=
  ∀ k, k < nodes.length →
    (getNode nodes k).idx = k ∧
      ∀ p b, (getNode nodes k).parent = some (p, b) → p < k

/-- Stack well-formedness: all pending indices point into the arena. -/
def StackWF (nodes : List (PathNode D)) (stack : List Nat) : Prop :=
  ∀ j ∈ stack, j < nodes.length

/-- The termination measure of the search loop. -/
def nu (S : SearchState D) : Nat :=
  (101 - S.nodes.length) + S.stack.length + 1

/-- The loop from `S` has fully completed: the stack emptied while the arena
    stayed within the node budget. -/
def Completes (m : Machine D I) (location : String) : Prop :=
  (go m 102 (initState m location)).stack = [] ∧
    (go m 102 (initState m location)).nodes.length ≤ MAX_NODES

/-- A single concrete step of the machine, ignoring the `enable` predicate
    (as the reachability analyzer does): some outgoing transition of the
    source location has a bound containing the register value, leads to the
    target location, and produces the target value under some input. -/
def RunStep (m : Machine D I) : String × D → String × D → Prop :=
  fun c c' => ∃ ts, List.lookup c.1 m.locations = some ts ∧
    ∃ t ∈ ts, t.bound.contains c.2 = true ∧ t.to_location = c'.1 ∧
      ∃ i, t.update c.2 i = c'.2

/-- The user obligation on `Update` implementations stated in the spec: the
    symbolic lift over-approximates the concrete update on every transition
    of the machine. -/
def SoundLift (m : Machine D I) : Prop :=
  ∀ l ts, List.lookup l m.locations = some ts →
    ∀ t ∈ ts, ∀ (b : Bound D) (d : D) (i : I),
      b.contains d = true → (t.update_interval b).contains (t.update d i) = true

/-- Node `k` of the final search state has been expanded: all its non-empty
    bound intersections produced children in the arena. -/
def ProcessedExp (m : Machine D I) (F : SearchState D) (k : Nat) : Prop :=
  ∀ ts, List.lookup (getNode F.nodes k).location m.locations = some ts →
    ∀ t ∈ ts, ∀ post,
      (getNode F.nodes k).interval.intersect t.bound = some post →
      ∃ j, j < F.nodes.length ∧
        getNode F.nodes j =
          ⟨j, some (k, post), t.to_location, t.update_interval post⟩

/-- Node `k` of the final search state has been marked whenever its location
    is accepting: every `post` interval on the path to `k` is covered by the
    final `safe` map at the corresponding parent location. -/
def ProcessedMark (m : Machine D I) (F : SearchState D) (k : Nat) : Prop :=
  m.accepting.contains (getNode F.nodes k).location = true →
    ∀ lb ∈ pathEdges F.nodes k, ∀ d, lb.2.contains d = true →
      Covered F.safe lb.1 d

/-- Node `k` of the final search state has been fully processed. -/
def Processed (m : Machine D I) (F : SearchState D) (k : Nat) : Prop :=
  ProcessedExp m F k ∧ ProcessedMark m F k

/-- A chain of arena nodes shadowing a concrete run: node `j` shadows the
    first configuration, each next configuration is shadowed by a child node
    whose parent edge carries a `post` interval containing the previous
    register value, and `k` is the node shadowing the last configuration. -/
inductive ShadowPath (F : SearchState D) : Nat → List (String × D) → Nat → Prop where
  | single (j : Nat) (l : String) (d : D) :
      j < F.nodes.length → (getNode F.nodes j).location = l →
      (getNode F.nodes j).interval.contains d = true →
      ShadowPath F j [(l, d)] j
  | cons (j : Nat) (l : String) (d : D) (j' : Nat) (post : Bound D)
      (c' : String × D) (rest : List (String × D)) (k : Nat) :
      j < F.nodes.length → (getNode F.nodes j).location = l →
      (getNode F.nodes j).interval.contains d = true →
      j' < F.nodes.length →
      (getNode F.nodes j').parent = some (j, post) →
      post.contains d = true →
      ShadowPath F j' (c' :: rest) k →
      ShadowPath F j ((l, d) :: c' :: rest) k

/-! ### Interval lemmas -/

theorem as_explicit_from_explicit (p : D × D) :
    (Bound.from_explicit p).as_explicit = p := by
  obtain ⟨x, y⟩ := p
  simp only [Bound.from_explicit, Bound.as_explicit, Option.filter_some,
    Prod.mk.injEq]
  constructor
  · by_cases hx : x = BoundedDom.min_value
    · simp [hx]
    · simp [hx]
  · by_cases hy : y = BoundedDom.max_value
    · simp [hy]
    · simp [hy]

theorem canonical_from_explicit (p : D × D) :
    Bound.Canonical (Bound.from_explicit p) := by
  unfold Bound.Canonical
  rw [as_explicit_from_explicit]

theorem contains_iff (a : Bound D) (d : D) :
    a.contains d = true ↔ a.as_explicit.1 ≤ d ∧ d ≤ a.as_explicit.2 := by
  simp [Bound.contains]

theorem contains_interval_iff (a b : Bound D) :
    a.contains_interval b = true ↔
      a.as_explicit.1 ≤ b.as_explicit.1 ∧ b.as_explicit.2 ≤ a.as_explicit.2 := by
  simp [Bound.contains_interval, ge_iff_le]

theorem unbounded_contains (d : D) :
    (Bound.unbounded : Bound D).contains d = true := by
  rw [contains_iff]
  exact ⟨BoundedDom.min_le d, BoundedDom.le_max d⟩

theorem intersect_of_mem {a b : Bound D} {d : D}
    (ha : a.contains d = true) (hb : b.contains d = true) :
    ∃ c, a.intersect b = some c ∧ c.contains d = true := by
  rw [contains_iff] at ha hb
  refine ⟨Bound.from_explicit
    (max a.as_explicit.1 b.as_explicit.1, min a.as_explicit.2 b.as_explicit.2),
    ?_, ?_⟩
  · unfold Bound.intersect
    have : ¬(a.as_explicit.1 > b.as_explicit.2 ∨ a.as_explicit.2 < b.as_explicit.1) := by
      push_neg
      exact ⟨le_trans ha.1 hb.2, le_trans hb.1 ha.2⟩
    simp only [this, if_false]
  · rw [contains_iff, as_explicit_from_explicit]
    exact ⟨max_le ha.1 hb.1, le_min ha.2 hb.2⟩

theorem contains_make_contain_left {a : Bound D} (b : Bound D) {d : D}
    (ha : a.contains d = true) : (a.make_contain b).contains d = true := by
  rw [contains_iff] at ha ⊢
  unfold Bound.make_contain Bound.as_explicit
  simp only [Option.getD_some]
  exact ⟨le_trans (min_le_left _ _) ha.1, le_trans ha.2 (le_max_left _ _)⟩

theorem contains_make_contain_right (a : Bound D) {b : Bound D} {d : D}
    (hb : b.contains d = true) : (a.make_contain b).contains d = true := by
  rw [contains_iff] at hb ⊢
  unfold Bound.make_contain Bound.as_explicit
  simp only [Option.getD_some]
  exact ⟨le_trans (min_le_right _ _) hb.1, le_trans hb.2 (le_max_right _ _)⟩

theorem make_contain_contains_interval (a b : Bound D) :
    (a.make_contain b).contains_interval b = true := by
  rw [contains_interval_iff]
  unfold Bound.make_contain Bound.as_explicit
  simp only [Option.getD_some]
  exact ⟨min_le_right _ _, le_max_right _ _⟩

theorem make_contain_of_contains_interval {a b : Bound D}
    (h : a.contains_interval b = true) :
    (a.make_contain b).as_explicit = a.as_explicit := by
  rw [contains_interval_iff] at h
  unfold Bound.make_contain
  unfold Bound.as_explicit at h ⊢
  simp only [Option.getD_some]
  rw [min_eq_left h.1, max_eq_left h.2]

/-! ### Reachability-map lemmas -/

theorem lookup_updateSafe_self (safe : List (String × Bound D)) (l : String)
    (v : Bound D) :
    (updateSafe safe l v).lookup l =
      some (match safe.lookup l with
            | some b => b.union_with v
            | none => v) := by
  induction safe with
  | nil => simp [updateSafe, List.lookup]
  | cons hd tl ih =>
      obtain ⟨k, b⟩ := hd
      by_cases hk : k = l
      · subst hk
        simp [updateSafe, List.lookup]
      · have hb : (l == k) = false := beq_eq_false_iff_ne.mpr (Ne.symm hk)
        simp [updateSafe, List.lookup, hk, hb, ih]

theorem lookup_updateSafe_other (safe : List (String × Bound D))
    {l l' : String} (v : Bound D) (hne : l ≠ l') :
    (updateSafe safe l' v).lookup l = safe.lookup l := by
  induction safe with
  | nil =>
      have hb : (l == l') = false := beq_eq_false_iff_ne.mpr hne
      simp [updateSafe, List.lookup, hb]
  | cons hd tl ih =>
      obtain ⟨k, b⟩ := hd
      by_cases hk : k = l'
      · subst hk
        have hb : (l == k) = false := beq_eq_false_iff_ne.mpr hne
        simp [updateSafe, List.lookup, hb]
      · by_cases hlk : l = k
        · subst hlk
          simp [updateSafe, List.lookup, hk]
        · have hb : (l == k) = false := beq_eq_false_iff_ne.mpr hlk
          simp [updateSafe, List.lookup, hk, hb, ih]

theorem Covered_updateSafe_mono {safe : List (String × Bound D)} {l : String}
    {d : D} (l' : String) (v : Bound D) (h : Covered safe l d) :
    Covered (updateSafe safe l' v) l d := by
  obtain ⟨b, hl, hb⟩ := h
  unfold Covered
  by_cases he : l = l'
  · subst he
    rw [lookup_updateSafe_self, hl]
    exact ⟨b.union_with v, rfl, contains_make_contain_left v hb⟩
  · rw [lookup_updateSafe_other safe v he]
    exact ⟨b, hl, hb⟩

theorem Covered_updateSafe_self {v : Bound D} {d : D}
    (safe : List (String × Bound D)) (l : String)
    (hv : v.contains d = true) : Covered (updateSafe safe l v) l d := by
  unfold Covered
  rw [lookup_updateSafe_self]
  cases h : safe.lookup l with
  | none => exact ⟨v, rfl, hv⟩
  | some b => exact ⟨b.union_with v, rfl, contains_make_contain_right b hv⟩

theorem AccInv_updateSafe {acc : List String} {safe : List (String × Bound D)}
    (l' : String) (v : Bound D) (h : AccInv acc safe) :
    AccInv acc (updateSafe safe l' v) := by
  intro l hl
  obtain ⟨b, hlk, hall⟩ := h l hl
  by_cases he : l = l'
  · subst he
    rw [lookup_updateSafe_self, hlk]
    exact ⟨b.union_with v, rfl,
      fun d => contains_make_contain_left v (hall d)⟩
  · rw [lookup_updateSafe_other safe v he]
    exact ⟨b, hlk, hall⟩

theorem Covered_foldl_mono (L : List (String × Bound D))
    {safe : List (String × Bound D)} {l : String} {d : D}
    (h : Covered safe l d) :
    Covered (L.foldl (fun s p => updateSafe s p.1 p.2) safe) l d := by
  induction L generalizing safe with
  | nil => exact h
  | cons hd tl ih => exact ih (Covered_updateSafe_mono hd.1 hd.2 h)

theorem Covered_foldl_mem (L : List (String × Bound D))
    (safe : List (String × Bound D)) :
    ∀ lb ∈ L, ∀ d, lb.2.contains d = true →
      Covered (L.foldl (fun s p => updateSafe s p.1 p.2) safe) lb.1 d := by
  induction L generalizing safe with
  | nil => intro lb h; cases h
  | cons hd tl ih =>
      intro lb hmem d hd'
      rcases List.mem_cons.mp hmem with h | h
      · subst h
        exact Covered_foldl_mono tl (Covered_updateSafe_self safe lb.1 hd')
      · exact ih (updateSafe safe hd.1 hd.2) lb h d hd'

theorem AccInv_foldl (L : List (String × Bound D)) {acc : List String}
    {safe : List (String × Bound D)} (h : AccInv acc safe) :
    AccInv acc (L.foldl (fun s p => updateSafe s p.1 p.2) safe) := by
  induction L generalizing safe with
  | nil => exact h
  | cons hd tl ih => exact ih (AccInv_updateSafe hd.1 hd.2 h)

theorem lookup_map_const (acc : List String) (v : Bound D) {l : String}
    (hmem : l ∈ acc) :
    (acc.map (fun a => (a, v))).lookup l = some v := by
  induction acc with
  | nil => cases hmem
  | cons a tl ih =>
      by_cases ha : l = a
      · subst ha
        simp [List.lookup]
      · have hb : (l == a) = false := beq_eq_false_iff_ne.mpr ha
        have htl : l ∈ tl := by
          rcases List.mem_cons.mp hmem with h | h
          · exact absurd h ha
          · exact h
        simp [List.lookup, hb, ih htl]

theorem AccInv_seed (acc : List String) :
    AccInv acc (acc.map (fun l => (l, (Bound.unbounded : Bound D)))) := by
  intro l hl
  have hmem : l ∈ acc := by
    simpa using hl
  exact ⟨Bound.unbounded, lookup_map_const acc Bound.unbounded hmem,
    fun d => unbounded_contains d⟩

theorem markPath_covers (nodes : List (PathNode D)) (k : Nat)
    (safe : List (String × Bound D)) :
    ∀ lb ∈ pathEdges nodes k, ∀ d, lb.2.contains d = true →
      Covered (markPath nodes k safe) lb.1 d :=
  Covered_foldl_mem (pathEdges nodes k) safe

theorem markPath_mono (nodes : List (PathNode D)) (k : Nat)
    {safe : List (String × Bound D)} {l : String} {d : D}
    (h : Covered safe l d) : Covered (markPath nodes k safe) l d :=
  Covered_foldl_mono (pathEdges nodes k) h

theorem markPath_AccInv (nodes : List (PathNode D)) (k : Nat)
    {acc : List String} {safe : List (String × Bound D)}
    (h : AccInv acc safe) : AccInv acc (markPath nodes k safe) :=
  AccInv_foldl (pathEdges nodes k) h

/-! ### Expansion-loop lemmas -/

variable {I : Type}

theorem expand_len_mono (idx : Nat) (cur : Bound D)
    (ts : List (Transition D I)) (ns : List (PathNode D)) (st : List Nat) :
    ns.length ≤ (expand idx cur ts ns st).1.length := by
  induction ts generalizing ns st with
  | nil => simp [expand]
  | cons t ts ih =>
      cases h : cur.intersect t.bound with
      | none => simpa [expand, h] using ih ns st
      | some post =>
          have := ih (ns ++ [⟨ns.length, some (idx, post), t.to_location,
            t.update_interval post⟩]) (ns.length :: st)
          simp only [expand, h]
          calc ns.length ≤ (ns ++ [_]).length := by simp
            _ ≤ _ := this

theorem expand_stable (idx : Nat) (cur : Bound D)
    (ts : List (Transition D I)) (ns : List (PathNode D)) (st : List Nat) :
    ∀ k, k < ns.length →
      getNode (expand idx cur ts ns st).1 k = getNode ns k := by
  induction ts generalizing ns st with
  | nil => intro k hk; simp [expand]
  | cons t ts ih =>
      intro k hk
      cases h : cur.intersect t.bound with
      | none => simpa [expand, h] using ih ns st k hk
      | some post =>
          have h1 := ih (ns ++ [⟨ns.length, some (idx, post), t.to_location,
            t.update_interval post⟩]) (ns.length :: st) k
            (by simp; omega)
          simp only [expand, h]
          rw [h1]
          unfold getNode
          exact List.getD_append _ _ _ _ hk

theorem expand_lens (idx : Nat) (cur : Bound D)
    (ts : List (Transition D I)) (ns : List (PathNode D)) (st : List Nat) :
    (expand idx cur ts ns st).1.length + st.length =
      (expand idx cur ts ns st).2.length + ns.length := by
  induction ts generalizing ns st with
  | nil => simp [expand, Nat.add_comm]
  | cons t ts ih =>
      cases h : cur.intersect t.bound with
      | none => simpa [expand, h] using ih ns st
      | some post =>
          have hrec := ih (ns ++ [⟨ns.length, some (idx, post), t.to_location,
            t.update_interval post⟩]) (ns.length :: st)
          simp only [expand, h]
          simp only [List.length_append, List.length_cons,
            List.length_nil] at hrec ⊢
          omega

theorem expand_stack_old (idx : Nat) (cur : Bound D)
    (ts : List (Transition D I)) (ns : List (PathNode D)) (st : List Nat) :
    ∀ j ∈ st, j ∈ (expand idx cur ts ns st).2 := by
  induction ts generalizing ns st with
  | nil => intro j hj; simpa [expand] using hj
  | cons t ts ih =>
      intro j hj
      cases h : cur.intersect t.bound with
      | none => simpa [expand, h] using ih ns st j hj
      | some post =>
          have := ih (ns ++ [⟨ns.length, some (idx, post), t.to_location,
            t.update_interval post⟩]) (ns.length :: st) j
            (List.mem_cons_of_mem _ hj)
          simpa [expand, h] using this

theorem expand_stack_new (idx : Nat) (cur : Bound D)
    (ts : List (Transition D I)) (ns : List (PathNode D)) (st : List Nat) :
    ∀ k, ns.length ≤ k → k < (expand idx cur ts ns st).1.length →
      k ∈ (expand idx cur ts ns st).2 := by
  induction ts generalizing ns st with
  | nil =>
      intro k hk hk'
      simp only [expand] at hk'
      omega
  | cons t ts ih =>
      intro k hk hk'
      cases h : cur.intersect t.bound with
      | none =>
          simp only [expand, h] at hk' ⊢
          exact ih ns st k hk hk'
      | some post =>
          simp only [expand, h] at hk' ⊢
          by_cases hke : k = ns.length
          · subst hke
            exact expand_stack_old idx cur ts _ _ _ (List.mem_cons_self _ _)
          · refine ih _ _ k ?_ hk'
            simp only [List.length_append, List.length_cons, List.length_nil]
            omega

theorem expand_stack_mem (idx : Nat) (cur : Bound D)
    (ts : List (Transition D I)) (ns : List (PathNode D)) (st : List Nat) :
    ∀ j ∈ (expand idx cur ts ns st).2,
      j ∈ st ∨ (ns.length ≤ j ∧ j < (expand idx cur ts ns st).1.length) := by
  induction ts generalizing ns st with
  | nil => intro j hj; exact Or.inl (by simpa [expand] using hj)
  | cons t ts ih =>
      intro j hj
      cases h : cur.intersect t.bound with
      | none =>
          simp only [expand, h] at hj ⊢
          exact ih ns st j hj
      | some post =>
          simp only [expand, h] at hj ⊢
          rcases ih _ _ j hj with hmem | ⟨h1, h2⟩
          · rcases List.mem_cons.mp hmem with he | hmem'
            · subst he
              refine Or.inr ⟨le_refl _, ?_⟩
              have := expand_len_mono idx cur ts
                (ns ++ [⟨ns.length, some (idx, post), t.to_location,
                  t.update_interval post⟩]) (ns.length :: st)
              simp only [List.length_append, List.length_singleton] at this
              omega
            · exact Or.inl hmem'
          · refine Or.inr ⟨?_, h2⟩
            simp only [List.length_append, List.length_singleton] at h1
            omega

theorem NodesWF_append_single {ns : List (PathNode D)} {c : PathNode D}
    (h : NodesWF ns) (hidx : c.idx = ns.length)
    (hpar : ∀ p b, c.parent = some (p, b) → p < ns.length) :
    NodesWF (ns ++ [c]) := by
  intro k hk
  simp only [List.length_append, List.length_singleton] at hk
  by_cases hke : k < ns.length
  · have heq : getNode (ns ++ [c]) k = getNode ns k :=
      List.getD_append _ _ _ _ hke
    rw [heq]
    exact h k hke
  · have hkn : k = ns.length := by omega
    subst hkn
    have heq : getNode (ns ++ [c]) ns.length = c := by
      unfold getNode
      rw [List.getD_append_right _ _ _ _ (le_refl _)]
      simp
    rw [heq]
    exact ⟨hidx, fun p b hp => hpar p b hp⟩

theorem expand_WF (idx : Nat) (cur : Bound D)
    (ts : List (Transition D I)) (ns : List (PathNode D)) (st : List Nat)
    (hWF : NodesWF ns) (hidx : idx < ns.length) :
    NodesWF (expand idx cur ts ns st).1 := by
  induction ts generalizing ns st with
  | nil => simpa [expand] using hWF
  | cons t ts ih =>
      cases h : cur.intersect t.bound with
      | none =>
          simp only [expand, h]
          exact ih ns st hWF hidx
      | some post =>
          simp only [expand, h]
          refine ih _ _ ?_ (by simp; omega)
          exact NodesWF_append_single hWF rfl
            (fun p b hp => by
              simp only [Option.some.injEq, Prod.mk.injEq] at hp
              omega)

theorem expand_children (idx : Nat) (cur : Bound D)
    (ts : List (Transition D I)) (ns : List (PathNode D)) (st : List Nat) :
    ∀ t ∈ ts, ∀ post, cur.intersect t.bound = some post →
      ∃ j, j < (expand idx cur ts ns st).1.length ∧
        getNode (expand idx cur ts ns st).1 j =
          ⟨j, some (idx, post), t.to_location, t.update_interval post⟩ := by
  induction ts generalizing ns st with
  | nil => intro t ht; cases ht
  | cons t0 ts ih =>
      intro t ht post hpost
      rcases List.mem_cons.mp ht with he | hmem
      · subst he
        refine ⟨ns.length, ?_, ?_⟩
        · have := expand_len_mono idx cur ts
            (ns ++ [⟨ns.length, some (idx, post), t.to_location,
              t.update_interval post⟩]) (ns.length :: st)
          simp only [List.length_append, List.length_singleton] at this
          simp only [expand, hpost]
          omega
        · simp only [expand, hpost]
          rw [expand_stable idx cur ts _ _ ns.length (by simp)]
          unfold getNode
          rw [List.getD_append_right _ _ _ _ (le_refl _)]
          simp
      · cases h : cur.intersect t0.bound with
        | none =>
            simp only [expand, h]
            exact ih ns st t hmem post hpost
        | some post0 =>
            simp only [expand, h]
            exact ih _ _ t hmem post hpost

/-! ### Path lemmas -/

theorem pathAscend_none {nodes : List (PathNode D)} {k : Nat}
    (h : (getNode nodes k).parent = none) (f : Nat) :
    pathAscend nodes f k = [k] := by
  rw [pathAscend, h]

theorem pathAscend_zero {nodes : List (PathNode D)} {k p : Nat} {b : Bound D}
    (h : (getNode nodes k).parent = some (p, b)) :
    pathAscend nodes 0 k = [k] := by
  rw [pathAscend, h]

theorem pathAscend_succ {nodes : List (PathNode D)} {k p : Nat} {b : Bound D}
    (f : Nat) (h : (getNode nodes k).parent = some (p, b)) :
    pathAscend nodes (f + 1) k = k :: pathAscend nodes f p := by
  rw [pathAscend, h]

theorem self_mem_pathAscend (nodes : List (PathNode D)) (f k : Nat) :
    k ∈ pathAscend nodes f k := by
  cases hp : (getNode nodes k).parent with
  | none => rw [pathAscend_none hp]; exact List.mem_singleton.mpr rfl
  | some pb =>
      obtain ⟨p, b⟩ := pb
      cases f with
      | zero => rw [pathAscend_zero hp]; exact List.mem_singleton.mpr rfl
      | succ f => rw [pathAscend_succ f hp]; exact List.mem_cons_self _ _

theorem pathAscend_congr {n1 n2 : List (PathNode D)} :
    ∀ (f k : Nat), (∀ j, j ≤ k → getNode n1 j = getNode n2 j) →
      (∀ j, j ≤ k → ∀ p b, (getNode n1 j).parent = some (p, b) → p < j) →
      pathAscend n1 f k = pathAscend n2 f k := by
  intro f
  induction f with
  | zero =>
      intro k h hdec
      cases hp : (getNode n1 k).parent with
      | none =>
          have hp2 : (getNode n2 k).parent = none := (h k (le_refl k)) ▸ hp
          rw [pathAscend_none hp, pathAscend_none hp2]
      | some pb =>
          obtain ⟨p, b⟩ := pb
          have hp2 : (getNode n2 k).parent = some (p, b) :=
            (h k (le_refl k)) ▸ hp
          rw [pathAscend_zero hp, pathAscend_zero hp2]
  | succ f ih =>
      intro k h hdec
      cases hp : (getNode n1 k).parent with
      | none =>
          have hp2 : (getNode n2 k).parent = none := (h k (le_refl k)) ▸ hp
          rw [pathAscend_none hp, pathAscend_none hp2]
      | some pb =>
          obtain ⟨p, b⟩ := pb
          have hp2 : (getNode n2 k).parent = some (p, b) :=
            (h k (le_refl k)) ▸ hp
          have hlt : p < k := hdec k (le_refl k) p b hp
          have hrec := ih p (fun j hj => h j (le_trans hj (le_of_lt hlt)))
            (fun j hj => hdec j (le_trans hj (le_of_lt hlt)))
          rw [pathAscend_succ f hp, pathAscend_succ f hp2, hrec]

theorem pathAscend_closed {nodes : List (PathNode D)} (hWF : NodesWF nodes) :
    ∀ (f k : Nat), k < nodes.length → k ≤ f →
      ∀ j ∈ pathAscend nodes f k, j ≤ k ∧
        ∀ p b, (getNode nodes j).parent = some (p, b) →
          p ∈ pathAscend nodes f k := by
  intro f
  induction f with
  | zero =>
      intro k hk hkf j hj
      have hk0 : k = 0 := Nat.le_zero.mp hkf
      subst hk0
      cases hp : (getNode nodes 0).parent with
      | none =>
          rw [pathAscend_none hp] at hj
          rw [List.mem_singleton] at hj
          subst hj
          exact ⟨le_refl 0, fun p b hpb => by rw [hp] at hpb; cases hpb⟩
      | some pb =>
          exact absurd ((hWF 0 hk).2 pb.1 pb.2 (by rw [hp]))
            (Nat.not_lt_zero _)
  | succ f ih =>
      intro k hk hkf j hj
      cases hp : (getNode nodes k).parent with
      | none =>
          rw [pathAscend_none hp] at hj
          rw [List.mem_singleton] at hj
          subst hj
          exact ⟨le_refl _, fun p b hpb => by rw [hp] at hpb; cases hpb⟩
      | some pb =>
          obtain ⟨p0, b0⟩ := pb
          have hplt : p0 < k := (hWF k hk).2 p0 b0 hp
          rw [pathAscend_succ f hp] at hj
          rw [pathAscend_succ f hp]
          rcases List.mem_cons.mp hj with he | hmem
          · subst he
            refine ⟨le_refl _, fun p b hpb => ?_⟩
            rw [hp] at hpb
            injection hpb with hpb'
            injection hpb' with h1 h2
            subst h1
            exact List.mem_cons_of_mem _ (self_mem_pathAscend nodes f _)
          · have hcl := ih p0 (lt_trans hplt hk) (by omega) j hmem
            refine ⟨le_trans hcl.1 (le_of_lt hplt), fun p b hpb => ?_⟩
            exact List.mem_cons_of_mem _ (hcl.2 p b hpb)

theorem pathAscend_le {nodes : List (PathNode D)} :
    ∀ (f k : Nat),
      (∀ j, j ≤ k → ∀ p b, (getNode nodes j).parent = some (p, b) → p < j) →
      ∀ j ∈ pathAscend nodes f k, j ≤ k := by
  intro f
  induction f with
  | zero =>
      intro k hdec j hj
      cases hp : (getNode nodes k).parent with
      | none =>
          rw [pathAscend_none hp, List.mem_singleton] at hj
          omega
      | some pb =>
          obtain ⟨p, b⟩ := pb
          rw [pathAscend_zero hp, List.mem_singleton] at hj
          omega
  | succ f ih =>
      intro k hdec j hj
      cases hp : (getNode nodes k).parent with
      | none =>
          rw [pathAscend_none hp, List.mem_singleton] at hj
          omega
      | some pb =>
          obtain ⟨p, b⟩ := pb
          have hplt : p < k := hdec k (le_refl k) p b hp
          rw [pathAscend_succ f hp] at hj
          rcases List.mem_cons.mp hj with he | hmem
          · omega
          · have := ih p
              (fun j' hj' => hdec j' (le_trans hj' (le_of_lt hplt))) j hmem
            omega

theorem mem_pathEdges {nodes : List (PathNode D)} {k j p : Nat} {b : Bound D}
    (hj : j ∈ pathTo nodes k)
    (hp : (getNode nodes j).parent = some (p, b)) :
    ((getNode nodes p).location, b) ∈ pathEdges nodes k := by
  unfold pathEdges
  exact List.mem_filterMap.mpr ⟨j, hj, by rw [hp]; rfl⟩

theorem pathTo_congr {n1 n2 : List (PathNode D)} {k : Nat}
    (h : ∀ j, j ≤ k → getNode n1 j = getNode n2 j)
    (hdec : ∀ j, j ≤ k → ∀ p b, (getNode n1 j).parent = some (p, b) → p < j) :
    pathTo n1 k = pathTo n2 k := by
  unfold pathTo
  rw [pathAscend_congr k k h hdec]

theorem pathEdges_congr {n1 n2 : List (PathNode D)} {k : Nat}
    (h : ∀ j, j ≤ k → getNode n1 j = getNode n2 j)
    (hdec : ∀ j, j ≤ k → ∀ p b, (getNode n1 j).parent = some (p, b) → p < j) :
    pathEdges n1 k = pathEdges n2 k := by
  unfold pathEdges
  rw [← pathTo_congr h hdec]
  apply List.filterMap_congr
  intro j hj
  have hjk : j ≤ k := by
    unfold pathTo at hj
    rw [List.mem_reverse] at hj
    exact pathAscend_le k k hdec j hj
  cases hp : (getNode n1 j).parent with
  | none =>
      have hp2 : (getNode n2 j).parent = none := (h j hjk) ▸ hp
      rw [hp2]
      rfl
  | some pb =>
      obtain ⟨p, b⟩ := pb
      have hp2 : (getNode n2 j).parent = some (p, b) := (h j hjk) ▸ hp
      have hplt : p < j := hdec j hjk p b hp
      have hloc : getNode n1 p = getNode n2 p :=
        h p (le_trans (le_of_lt hplt) hjk)
      rw [hp2]
      simp [hloc]

/-! ### Search-iteration lemmas -/

theorem processOne_safe (m : Machine D I) (S : SearchState D) (idx : Nat)
    (rest : List Nat) :
    (processOne m S idx rest).safe = processSafe m S idx := by
  unfold processOne
  cases List.lookup (getNode S.nodes idx).location m.locations <;> rfl

theorem processSafe_covered_mono {m : Machine D I} {S : SearchState D}
    {idx : Nat} {l : String} {d : D} (h : Covered S.safe l d) :
    Covered (processSafe m S idx) l d := by
  unfold processSafe
  split
  · exact markPath_mono S.nodes idx h
  · exact h

theorem processSafe_AccInv {m : Machine D I} {S : SearchState D} {idx : Nat}
    (h : AccInv m.accepting S.safe) :
    AccInv m.accepting (processSafe m S idx) := by
  unfold processSafe
  split
  · exact markPath_AccInv S.nodes idx h
  · exact h

theorem processSafe_marks {m : Machine D I} {S : SearchState D} {idx : Nat}
    (hacc : m.accepting.contains (getNode S.nodes idx).location = true) :
    ∀ lb ∈ pathEdges S.nodes idx, ∀ d, lb.2.contains d = true →
      Covered (processSafe m S idx) lb.1 d := by
  unfold processSafe
  rw [hacc, Bool.or_true]
  simp only [if_true]
  exact markPath_covers S.nodes idx S.safe

theorem processOne_len_mono (m : Machine D I) (S : SearchState D) (idx : Nat)
    (rest : List Nat) :
    S.nodes.length ≤ (processOne m S idx rest).nodes.length := by
  unfold processOne
  cases List.lookup (getNode S.nodes idx).location m.locations with
  | none => exact le_refl _
  | some ts => exact expand_len_mono idx _ ts S.nodes rest

theorem processOne_stable (m : Machine D I) (S : SearchState D) (idx : Nat)
    (rest : List Nat) :
    ∀ k, k < S.nodes.length →
      getNode (processOne m S idx rest).nodes k = getNode S.nodes k := by
  intro k hk
  unfold processOne
  cases List.lookup (getNode S.nodes idx).location m.locations with
  | none => rfl
  | some ts => exact expand_stable idx _ ts S.nodes rest k hk

theorem processOne_WF {m : Machine D I} {S : SearchState D} {idx : Nat}
    {rest : List Nat} (hWF : NodesWF S.nodes) (hidx : idx < S.nodes.length) :
    NodesWF (processOne m S idx rest).nodes := by
  unfold processOne
  cases List.lookup (getNode S.nodes idx).location m.locations with
  | none => exact hWF
  | some ts => exact expand_WF idx _ ts S.nodes rest hWF hidx

theorem processOne_stack_mem (m : Machine D I) (S : SearchState D) (idx : Nat)
    (rest : List Nat) :
    ∀ j ∈ (processOne m S idx rest).stack,
      j ∈ rest ∨ (S.nodes.length ≤ j ∧
        j < (processOne m S idx rest).nodes.length) := by
  intro j hj
  unfold processOne at hj ⊢
  cases hl : List.lookup (getNode S.nodes idx).location m.locations with
  | none =>
      rw [hl] at hj
      exact Or.inl hj
  | some ts =>
      rw [hl] at hj
      exact expand_stack_mem idx _ ts S.nodes rest j hj

theorem processOne_rest_sub (m : Machine D I) (S : SearchState D) (idx : Nat)
    (rest : List Nat) :
    ∀ j ∈ rest, j ∈ (processOne m S idx rest).stack := by
  intro j hj
  unfold processOne
  cases List.lookup (getNode S.nodes idx).location m.locations with
  | none => exact hj
  | some ts => exact expand_stack_old idx _ ts S.nodes rest j hj

theorem processOne_new_mem (m : Machine D I) (S : SearchState D) (idx : Nat)
    (rest : List Nat) :
    ∀ k, S.nodes.length ≤ k → k < (processOne m S idx rest).nodes.length →
      k ∈ (processOne m S idx rest).stack := by
  intro k hk hk'
  unfold processOne at hk' ⊢
  cases hl : List.lookup (getNode S.nodes idx).location m.locations with
  | none =>
      rw [hl] at hk'
      have hk2 : k < S.nodes.length := hk'
      omega
  | some ts =>
      rw [hl] at hk'
      exact expand_stack_new idx _ ts S.nodes rest k hk hk'

theorem processOne_children {m : Machine D I} {S : SearchState D} {idx : Nat}
    (rest : List Nat) {ts : List (Transition D I)}
    (hl : List.lookup (getNode S.nodes idx).location m.locations = some ts) :
    ∀ t ∈ ts, ∀ post,
      (getNode S.nodes idx).interval.intersect t.bound = some post →
      ∃ j, j < (processOne m S idx rest).nodes.length ∧
        getNode (processOne m S idx rest).nodes j =
          ⟨j, some (idx, post), t.to_location, t.update_interval post⟩ := by
  intro t ht post hpost
  unfold processOne
  rw [hl]
  exact expand_children idx _ ts S.nodes rest t ht post hpost

theorem processOne_lens (m : Machine D I) (S : SearchState D) (idx : Nat)
    (rest : List Nat) :
    (processOne m S idx rest).nodes.length + rest.length =
      (processOne m S idx rest).stack.length + S.nodes.length := by
  unfold processOne
  cases List.lookup (getNode S.nodes idx).location m.locations with
  | none => simp [Nat.add_comm]
  | some ts => exact expand_lens idx _ ts S.nodes rest

/-! ### Search-loop lemmas -/

theorem go_zero (m : Machine D I) (S : SearchState D) : go m 0 S = S := rfl

theorem go_succ (m : Machine D I) (fuel : Nat) (S : SearchState D) :
    go m (fuel + 1) S =
      if S.nodes.length > MAX_NODES then S
      else
        match S.stack with
        | [] => S
        | idx :: rest => go m fuel (processOne m S idx rest) := rfl

theorem go_big (m : Machine D I) : ∀ (fuel : Nat) (S : SearchState D),
    S.nodes.length > MAX_NODES → go m fuel S = S := by
  intro fuel S h
  cases fuel with
  | zero => rfl
  | succ fuel => rw [go_succ, if_pos h]

theorem go_len_mono (m : Machine D I) : ∀ (fuel : Nat) (S : SearchState D),
    S.nodes.length ≤ (go m fuel S).nodes.length := by
  intro fuel
  induction fuel with
  | zero => intro S; exact le_refl _
  | succ fuel ih =>
      intro S
      rw [go_succ]
      by_cases hbig : S.nodes.length > MAX_NODES
      · rw [if_pos hbig]
      · rw [if_neg hbig]
        cases hstack : S.stack with
        | nil => exact le_refl _
        | cons idx rest =>
            exact le_trans (processOne_len_mono m S idx rest)
              (ih (processOne m S idx rest))

theorem go_stable (m : Machine D I) : ∀ (fuel : Nat) (S : SearchState D)
    (k : Nat), k < S.nodes.length →
    getNode (go m fuel S).nodes k = getNode S.nodes k := by
  intro fuel
  induction fuel with
  | zero => intro S k hk; rfl
  | succ fuel ih =>
      intro S k hk
      rw [go_succ]
      by_cases hbig : S.nodes.length > MAX_NODES
      · rw [if_pos hbig]
      · rw [if_neg hbig]
        cases hstack : S.stack with
        | nil => rfl
        | cons idx rest =>
            rw [ih (processOne m S idx rest) k
              (lt_of_lt_of_le hk (processOne_len_mono m S idx rest))]
            exact processOne_stable m S idx rest k hk

theorem go_covered_mono (m : Machine D I) : ∀ (fuel : Nat) (S : SearchState D)
    {l : String} {d : D}, Covered S.safe l d →
    Covered (go m fuel S).safe l d := by
  intro fuel
  induction fuel with
  | zero => intro S l d h; exact h
  | succ fuel ih =>
      intro S l d h
      rw [go_succ]
      by_cases hbig : S.nodes.length > MAX_NODES
      · rw [if_pos hbig]; exact h
      · rw [if_neg hbig]
        cases hstack : S.stack with
        | nil => exact h
        | cons idx rest =>
            refine ih (processOne m S idx rest) ?_
            rw [processOne_safe]
            exact processSafe_covered_mono h

theorem go_AccInv (m : Machine D I) : ∀ (fuel : Nat) (S : SearchState D),
    AccInv m.accepting S.safe → AccInv m.accepting (go m fuel S).safe := by
  intro fuel
  induction fuel with
  | zero => intro S h; exact h
  | succ fuel ih =>
      intro S h
      rw [go_succ]
      by_cases hbig : S.nodes.length > MAX_NODES
      · rw [if_pos hbig]; exact h
      · rw [if_neg hbig]
        cases hstack : S.stack with
        | nil => exact h
        | cons idx rest =>
            refine ih (processOne m S idx rest) ?_
            rw [processOne_safe]
            exact processSafe_AccInv h

theorem go_WF (m : Machine D I) : ∀ (fuel : Nat) (S : SearchState D),
    NodesWF S.nodes → StackWF S.nodes S.stack →
    NodesWF (go m fuel S).nodes ∧
      StackWF (go m fuel S).nodes (go m fuel S).stack := by
  intro fuel
  induction fuel with
  | zero => intro S h1 h2; exact ⟨h1, h2⟩
  | succ fuel ih =>
      intro S h1 h2
      rw [go_succ]
      by_cases hbig : S.nodes.length > MAX_NODES
      · rw [if_pos hbig]; exact ⟨h1, h2⟩
      · rw [if_neg hbig]
        cases hstack : S.stack with
        | nil => exact ⟨h1, h2⟩
        | cons idx rest =>
            have hidx : idx < S.nodes.length :=
              h2 idx (hstack ▸ List.mem_cons_self _ _)
            refine ih (processOne m S idx rest)
              (processOne_WF h1 hidx) ?_
            intro j hj
            rcases processOne_stack_mem m S idx rest j hj with hr | ⟨_, hlt⟩
            · exact lt_of_lt_of_le
                (h2 j (hstack ▸ List.mem_cons_of_mem _ hr))
                (processOne_len_mono m S idx rest)
            · exact hlt

theorem go_fuel_indep (m : Machine D I) : ∀ (f1 f2 : Nat)
    (S : SearchState D), nu S ≤ f1 → nu S ≤ f2 →
    go m f1 S = go m f2 S := by
  intro f1
  induction f1 with
  | zero =>
      intro f2 S h1 h2
      exact absurd h1 (by unfold nu; omega)
  | succ f1 ih =>
      intro f2 S h1 h2
      cases f2 with
      | zero => exact absurd h2 (by unfold nu; omega)
      | succ f2 =>
          by_cases hbig : S.nodes.length > MAX_NODES
          · rw [go_big m (f1 + 1) S hbig, go_big m (f2 + 1) S hbig]
          · rw [go_succ, go_succ, if_neg hbig, if_neg hbig]
            cases hstack : S.stack with
            | nil => rfl
            | cons idx rest =>
                show go m f1 (processOne m S idx rest) =
                  go m f2 (processOne m S idx rest)
                by_cases hbig' :
                  (processOne m S idx rest).nodes.length > MAX_NODES
                · rw [go_big m f1 _ hbig', go_big m f2 _ hbig']
                · have hlens := processOne_lens m S idx rest
                  have hmono := processOne_len_mono m S idx rest
                  have hnom : ¬ S.nodes.length > MAX_NODES := hbig
                  have hnu : nu (processOne m S idx rest) + 1 = nu S := by
                    unfold nu MAX_NODES at *
                    have hslen : S.stack.length = rest.length + 1 := by
                      rw [hstack]; rfl
                    omega
                  have hnuS : nu S ≤ f1 + 1 := h1
                  have hnuS2 : nu S ≤ f2 + 1 := by
                    have hns : S.stack.length = rest.length + 1 := by
                      rw [hstack]; rfl
                    exact h2
                  exact ih f2 (processOne m S idx rest)
                    (by omega) (by omega)

theorem go_exit (m : Machine D I) : ∀ (fuel : Nat) (S : SearchState D),
    nu S ≤ fuel → (go m fuel S).stack = [] ∨
      (go m fuel S).nodes.length > MAX_NODES := by
  intro fuel
  induction fuel with
  | zero =>
      intro S h
      exact absurd h (by unfold nu; omega)
  | succ fuel ih =>
      intro S h
      rw [go_succ]
      by_cases hbig : S.nodes.length > MAX_NODES
      · rw [if_pos hbig]; exact Or.inr hbig
      · rw [if_neg hbig]
        cases hstack : S.stack with
        | nil => exact Or.inl hstack
        | cons idx rest =>
            show (go m fuel (processOne m S idx rest)).stack = [] ∨
              (go m fuel (processOne m S idx rest)).nodes.length > MAX_NODES
            by_cases hbig' :
              (processOne m S idx rest).nodes.length > MAX_NODES
            · rw [go_big m fuel _ hbig']
              exact Or.inr hbig'
            · have hlens := processOne_lens m S idx rest
              have hmono := processOne_len_mono m S idx rest
              have hnom : ¬ S.nodes.length > MAX_NODES := hbig
              have hnu : nu (processOne m S idx rest) + 1 = nu S := by
                unfold nu MAX_NODES at *
                have hslen : S.stack.length = rest.length + 1 := by
                  rw [hstack]; rfl
                omega
              exact ih (processOne m S idx rest) (by omega)

theorem nu_initState (m : Machine D I) (location : String) :
    nu (initState m location) = 102 := by
  unfold nu initState
  rfl

/-! ### The main soundness induction -/

theorem processed_at (m : Machine D I) {S : SearchState D} {idx : Nat}
    (rest : List Nat) (fuel : Nat)
    (hWF : NodesWF S.nodes) (hidx : idx < S.nodes.length) :
    Processed m (go m fuel (processOne m S idx rest)) idx := by
  have hlen1 : S.nodes.length ≤ (processOne m S idx rest).nodes.length :=
    processOne_len_mono m S idx rest
  have hlenF : (processOne m S idx rest).nodes.length ≤
      (go m fuel (processOne m S idx rest)).nodes.length :=
    go_len_mono m fuel (processOne m S idx rest)
  have hstab : ∀ j, j < S.nodes.length →
      getNode (go m fuel (processOne m S idx rest)).nodes j =
        getNode S.nodes j := by
    intro j hj
    rw [go_stable m fuel (processOne m S idx rest) j
      (lt_of_lt_of_le hj hlen1)]
    exact processOne_stable m S idx rest j hj
  constructor
  · intro ts hts t ht post hpost
    rw [hstab idx hidx] at hts hpost
    obtain ⟨j, hj1, hj2⟩ :=
      processOne_children rest hts t ht post hpost
    refine ⟨j, lt_of_lt_of_le hj1 hlenF, ?_⟩
    rw [go_stable m fuel (processOne m S idx rest) j hj1, hj2]
  · intro hacc lb hlb d hd
    rw [hstab idx hidx] at hacc
    have hedges : pathEdges (go m fuel (processOne m S idx rest)).nodes idx =
        pathEdges S.nodes idx := by
      refine pathEdges_congr
        (fun j hj => hstab j (lt_of_le_of_lt hj hidx))
        (fun j hj p b hpb => ?_)
      rw [hstab j (lt_of_le_of_lt hj hidx)] at hpb
      exact (hWF j (lt_of_le_of_lt hj hidx)).2 p b hpb
    rw [hedges] at hlb
    have hcov : Covered (processOne m S idx rest).safe lb.1 d := by
      rw [processOne_safe]
      exact processSafe_marks hacc lb hlb d hd
    exact go_covered_mono m fuel (processOne m S idx rest) hcov

theorem go_processes (m : Machine D I) : ∀ (fuel : Nat) (S : SearchState D),
    NodesWF S.nodes → StackWF S.nodes S.stack →
    (go m fuel S).stack = [] → (go m fuel S).nodes.length ≤ MAX_NODES →
    (∀ k, k < S.nodes.length → k ∈ S.stack ∨ Processed m (go m fuel S) k) →
    ∀ k, k < (go m fuel S).nodes.length → Processed m (go m fuel S) k := by
  intro fuel
  induction fuel with
  | zero =>
      intro S hWF hstk hdone hlen hpend k hk
      rcases hpend k hk with hmem | hp
      · rw [go_zero] at hdone
        rw [hdone] at hmem
        cases hmem
      · exact hp
  | succ fuel ih =>
      intro S hWF hstk hdone hlen hpend k hk
      by_cases hbig : S.nodes.length > MAX_NODES
      · rw [go_big m (fuel + 1) S hbig] at hlen
        omega
      · cases hstack : S.stack with
        | nil =>
            have hgo : go m (fuel + 1) S = S := by
              rw [go_succ, if_neg hbig, hstack]
            rw [hgo] at hk ⊢
            rcases hpend k hk with hmem | hp
            · rw [hstack] at hmem
              cases hmem
            · rw [hgo] at hp
              exact hp
        | cons idx rest =>
            have hgo : go m (fuel + 1) S =
                go m fuel (processOne m S idx rest) := by
              rw [go_succ, if_neg hbig, hstack]
            rw [hgo] at hdone hlen hk ⊢
            have hidx : idx < S.nodes.length :=
              hstk idx (hstack ▸ List.mem_cons_self _ _)
            refine ih (processOne m S idx rest)
              (processOne_WF hWF hidx) ?_ hdone hlen ?_ k hk
            · intro j hj
              rcases processOne_stack_mem m S idx rest j hj with hr | ⟨_, hlt⟩
              · exact lt_of_lt_of_le
                  (hstk j (hstack ▸ List.mem_cons_of_mem _ hr))
                  (processOne_len_mono m S idx rest)
              · exact hlt
            · intro k2 hk2
              by_cases hlt : k2 < S.nodes.length
              · rcases hpend k2 hlt with hmem | hp
                · rw [hstack] at hmem
                  rcases List.mem_cons.mp hmem with he | hr
                  · subst he
                    exact Or.inr (processed_at m rest fuel hWF hidx)
                  · exact Or.inl (processOne_rest_sub m S idx rest k2 hr)
                · rw [hgo] at hp
                  exact Or.inr hp
              · exact Or.inl (processOne_new_mem m S idx rest k2
                  (le_of_not_lt hlt) hk2)

/-! ### Shadowing a concrete run in the search tree -/

theorem shadow_k_lt {F : SearchState D} {j : Nat} {cfgs : List (String × D)}
    {k : Nat} (sp : ShadowPath F j cfgs k) : k < F.nodes.length := by
  induction sp with
  | single j l d hj hloc hint => exact hj
  | cons j l d j' post c' rest k hj hloc hint hj' hpar hpost sp' ih => exact ih

theorem shadow_last {F : SearchState D} {j : Nat} {cfgs : List (String × D)}
    {k : Nat} (sp : ShadowPath F j cfgs k) :
    ∃ c, cfgs.getLast? = some c ∧ (getNode F.nodes k).location = c.1 := by
  induction sp with
  | single j l d hj hloc hint => exact ⟨(l, d), rfl, hloc⟩
  | cons j l d j' post c' rest k hj hloc hint hj' hpar hpost sp' ih =>
      obtain ⟨c, hc, hcl⟩ := ih
      exact ⟨c, by rw [List.getLast?_cons_cons]; exact hc, hcl⟩

theorem shadow_inPath {F : SearchState D} (hWF : NodesWF F.nodes) :
    ∀ {j : Nat} {cfgs : List (String × D)} {k : Nat},
      ShadowPath F j cfgs k → j ∈ pathTo F.nodes k := by
  intro j cfgs k sp
  induction sp with
  | single j l d hj hloc hint =>
      unfold pathTo
      rw [List.mem_reverse]
      exact self_mem_pathAscend F.nodes j j
  | cons j l d j' post c' rest k hj hloc hint hj' hpar hpost sp' ih =>
      have hklt : k < F.nodes.length := shadow_k_lt sp'
      unfold pathTo at ih ⊢
      rw [List.mem_reverse] at ih ⊢
      exact (pathAscend_closed hWF k k hklt (le_refl k) j' ih).2 j post hpar

theorem shadow_build {m : Machine D I} {F : SearchState D}
    (hall : ∀ k, k < F.nodes.length → Processed m F k)
    (hlift : SoundLift m) :
    ∀ (rest : List (String × D)) (j : Nat) (l : String) (d : D),
      j < F.nodes.length → (getNode F.nodes j).location = l →
      (getNode F.nodes j).interval.contains d = true →
      List.Chain' (RunStep m) ((l, d) :: rest) →
      ∃ k, ShadowPath F j ((l, d) :: rest) k := by
  intro rest
  induction rest with
  | nil =>
      intro j l d hj hloc hint hchain
      exact ⟨j, ShadowPath.single j l d hj hloc hint⟩
  | cons c' rest ih =>
      intro j l d hj hloc hint hchain
      rw [List.chain'_cons] at hchain
      obtain ⟨hstep, hchain'⟩ := hchain
      obtain ⟨ts, hts, t, ht, hbound, hto, i, hupd⟩ := hstep
      have hts' : List.lookup (getNode F.nodes j).location m.locations
          = some ts := by rw [hloc]; exact hts
      obtain ⟨post, hpost, hpostd⟩ := intersect_of_mem hint hbound
      obtain ⟨j', hj', hnode⟩ := (hall j hj).1 ts hts' t ht post hpost
      have hloc' : (getNode F.nodes j').location = c'.1 := by
        rw [hnode]
        exact hto
      have hint' : (getNode F.nodes j').interval.contains c'.2 = true := by
        rw [hnode]
        show (t.update_interval post).contains c'.2 = true
        rw [← hupd]
        exact hlift l ts hts t ht post d i hpostd
      have hpar : (getNode F.nodes j').parent = some (j, post) := by
        rw [hnode]
      obtain ⟨k, sp⟩ := ih j' c'.1 c'.2 hj' hloc' hint'
        (by
          obtain ⟨c1, c2⟩ := c'
          exact hchain')
      exact ⟨k, ShadowPath.cons j l d j' post c' rest k hj hloc hint hj'
        hpar hpostd sp⟩

theorem shadow_covered {m : Machine D I} {F : SearchState D}
    (hWF : NodesWF F.nodes) (hAcc : AccInv m.accepting F.safe) :
    ∀ {j : Nat} {cfgs : List (String × D)} {k : Nat},
      ShadowPath F j cfgs k →
      m.accepting.contains (getNode F.nodes k).location = true →
      (∀ lb ∈ pathEdges F.nodes k, ∀ d, lb.2.contains d = true →
        Covered F.safe lb.1 d) →
      ∀ c ∈ cfgs, Covered F.safe c.1 c.2 := by
  intro j cfgs k sp
  induction sp with
  | single j l d hj hloc hint =>
      intro hacck hmark c hc
      rw [List.mem_singleton] at hc
      subst hc
      obtain ⟨b, hb, hball⟩ := hAcc l (hloc ▸ hacck)
      exact ⟨b, hb, hball _⟩
  | cons j l d j' post c' rest k hj hloc hint hj' hpar hpost sp' ih =>
      intro hacck hmark c hc
      rcases List.mem_cons.mp hc with he | hm
      · subst he
        have hin : j' ∈ pathTo F.nodes k := shadow_inPath hWF sp'
        have hedge := mem_pathEdges hin hpar
        rw [hloc] at hedge
        exact hmark (l, post) hedge d hpost
      · exact ih hacck hmark c hm

/-! ### The claims -/

set_option maxRecDepth 8000

/-- C1 (counterexample): the claim fails as stated.  In `mCex` the self-loop
    on `l0` is pushed after the child leading to the accepting location, so
    depth-first search keeps expanding the loop until the arena exceeds the
    100-node budget and never pops any `acc` child.  The one-step run
    `(l0, 0) → (acc, 0)` follows transitions whose bounds contain the data and
    has length well below the budget, yet the returned map has no entry for
    `l0` at all. -/
theorem c1_counterexample :
    List.Chain' (RunStep mCex) [("l0", (0 : Fin 2)), ("acc", 0)] ∧
    mCex.accepting.contains "acc" = true ∧
    [("l0", (0 : Fin 2)), ("acc", 0)].length ≤ 101 ∧
    (mCex.find_non_empty "l0").lookup "l0" = none := by
  refine ⟨?_, by decide, by decide, by decide⟩
  rw [List.chain'_pair]
  exact ⟨[idTransition "acc", idTransition "l0"], rfl,
    idTransition "acc", List.mem_cons_self _ _, by decide, rfl, (), rfl⟩

/-- C1 (amended): soundness of `find_non_empty`.  If every transition's
    `update_interval` over-approximates its `update` (the spec's user
    obligation) and the bounded search completes — the loop ends with an
    empty stack while the arena is within the node budget — then for every
    concrete run from `(start, d0)` that reaches an accepting location by
    following transitions whose bound contains the current data value, the
    returned map has an entry containing `dᵢ` for every configuration
    `(ℓᵢ, dᵢ)` of the run (of any length).  The node-budget premise of the
    original claim is replaced by the completion premise, which the
    counterexample shows is necessary. -/
theorem c1_amended (m : Machine D I) (start : String) (d0 : D)
    (cfgs : List (String × D)) (hlift : SoundLift m)
    (hcomp : Completes m start)
    (hhead : cfgs.head? = some (start, d0))
    (hchain : List.Chain' (RunStep m) cfgs)
    (hlast : ∃ c, cfgs.getLast? = some c ∧ m.accepting.contains c.1 = true) :
    ∀ c ∈ cfgs, Covered (m.find_non_empty start) c.1 c.2 := by
  cases cfgs with
  | nil => cases hhead
  | cons c0 rest =>
      rw [List.head?_cons, Option.some.injEq] at hhead
      subst hhead
      have hWF0 : NodesWF (initState m start).nodes := by
        intro k hk
        have hlen1 : (initState m start).nodes.length = 1 := rfl
        have hk0 : k = 0 := by omega
        subst hk0
        refine ⟨rfl, fun p b hpb => ?_⟩
        have hnone : (getNode (initState m start).nodes 0).parent = none := rfl
        rw [hnone] at hpb
        cases hpb
      have hstk0 : StackWF (initState m start).nodes
          (initState m start).stack := by
        intro j hj
        have hs : (initState m start).stack = [0] := rfl
        rw [hs, List.mem_singleton] at hj
        subst hj
        show (0 : Nat) < 1
        omega
      have hall : ∀ k, k < (go m 102 (initState m start)).nodes.length →
          Processed m (go m 102 (initState m start)) k := by
        refine go_processes m 102 (initState m start) hWF0 hstk0
          hcomp.1 hcomp.2 ?_
        intro k hk
        have hlen1 : (initState m start).nodes.length = 1 := rfl
        have hk0 : k = 0 := by omega
        subst hk0
        exact Or.inl (List.mem_singleton.mpr rfl)
      have hWFF := (go_WF m 102 (initState m start) hWF0 hstk0).1
      have hAccF : AccInv m.accepting (go m 102 (initState m start)).safe :=
        go_AccInv m 102 (initState m start) (AccInv_seed m.accepting)
      have hroot : getNode (go m 102 (initState m start)).nodes 0 =
          ⟨0, none, start, Bound.unbounded⟩ := by
        rw [go_stable m 102 (initState m start) 0
          (by show (0 : Nat) < 1; omega)]
        rfl
      have h0lt : 0 < (go m 102 (initState m start)).nodes.length :=
        lt_of_lt_of_le (by show (0 : Nat) < 1; omega)
          (go_len_mono m 102 (initState m start))
      obtain ⟨k, sp⟩ := shadow_build hall hlift rest 0 start d0 h0lt
        (by rw [hroot]) (by rw [hroot]; exact unbounded_contains d0) hchain
      have hklt := shadow_k_lt sp
      obtain ⟨cl, hcl, hclloc⟩ := shadow_last sp
      obtain ⟨cl2, hcl2, hacc2⟩ := hlast
      rw [hcl, Option.some.injEq] at hcl2
      subst hcl2
      have hacck : m.accepting.contains
          (getNode (go m 102 (initState m start)).nodes k).location = true := by
        rw [hclloc]
        exact hacc2
      have hmark := (hall k hklt).2 hacck
      intro c hc
      exact shadow_covered hWFF hAccF sp hacck hmark c hc

/-- C1 (witness): the amended soundness theorem applied to a concrete
    machine whose only location `acc` is accepting and a one-configuration
    run. -/
theorem c1_amended_witness :
    Covered (mTiny.find_non_empty "acc") "acc" (0 : Fin 2) := by
  refine c1_amended mTiny "acc" 0 [("acc", 0)] ?_ ?_ rfl ?_ ?_ ("acc", 0) ?_
  · intro l ts h
    cases h
  · exact ⟨by decide, by decide⟩
  · exact List.chain'_singleton _
  · exact ⟨("acc", 0), rfl, by decide⟩
  · exact List.mem_singleton.mpr rfl

/-- C2 (counterexample): `complement` builds the new accepting set from the
    keys of the transition map only.  In `mTargetOnly`, location `b` is
    mentioned in the transition graph (as the target of the transition from
    `a`) and is not accepting, yet the complement's accepting set is exactly
    `[a]` and does not contain `b` — contradicting the claim that the new
    accepting set is all mentioned non-accepting locations. -/
theorem c2_counterexample :
    "b" ∈ mTargetOnly.spec_mentioned ∧
    "b" ∉ mTargetOnly.accepting ∧
    mTargetOnly.complement.accepting = ["a"] ∧
    "b" ∉ mTargetOnly.complement.accepting := by
  exact ⟨by decide, by decide, by decide, by decide⟩

/-- C2 (amended): `complement` keeps the transition map unchanged, and its
    accepting set is exactly the set of source locations (keys of the
    transition map) that are not in the original accepting set; locations
    appearing only as transition targets are not included. -/
theorem c2_amended (m : Machine D I) :
    m.complement.locations = m.locations ∧
    ∀ l, l ∈ m.complement.accepting ↔
      (l ∈ m.locations.map Prod.fst ∧ l ∉ m.accepting) := by
  refine ⟨rfl, fun l => ?_⟩
  show l ∈ (m.locations.map Prod.fst).filter
    (fun l => !(m.accepting.contains l)) ↔ _
  rw [List.mem_filter]
  simp

/-- C3: for every machine and start location, every accepting location has an
    entry in the map returned by `find_non_empty`, and that entry's interval
    contains every value of the domain.  The entries are seeded with the
    unbounded interval and only ever widened. -/
theorem c3_accepting_full_domain (m : Machine D I) (start l : String)
    (hl : m.accepting.contains l = true) :
    ∃ b, (m.find_non_empty start).lookup l = some b ∧
      ∀ d, b.contains d = true :=
  go_AccInv m 102 (initState m start) (AccInv_seed m.accepting) l hl

/-- C3 (witness). -/
theorem c3_witness :
    ∃ b, (mTiny.find_non_empty "acc").lookup "acc" = some b ∧
      ∀ d : Fin 2, b.contains d = true :=
  c3_accepting_full_domain mTiny "acc" "acc" (by decide)

/-- C4: the analyzer terminates.  Its loop runs only while the arena holds at
    most `MAX_NODES` nodes and the stack is non-empty; the embedded loop is
    stable under any fuel of at least 102 iterations (the measure of the
    initial state), and the final state is a genuine exit state: either the
    stack emptied or the arena exceeded the budget. -/
theorem c4_terminates (m : Machine D I) (location : String) (fuel : Nat)
    (hf : 102 ≤ fuel) :
    go m fuel (initState m location) = go m 102 (initState m location) ∧
    ((go m fuel (initState m location)).stack = [] ∨
      (go m fuel (initState m location)).nodes.length > MAX_NODES) := by
  have h1 : nu (initState m location) ≤ fuel := by
    rw [nu_initState]
    exact hf
  have h2 : nu (initState m location) ≤ 102 := by rw [nu_initState]
  exact ⟨go_fuel_indep m fuel 102 (initState m location) h1 h2,
    go_exit m fuel (initState m location) h1⟩

/-- C4 (witness). -/
theorem c4_witness :
    go mTiny 150 (initState mTiny "acc") = go mTiny 102 (initState mTiny "acc") ∧
    ((go mTiny 150 (initState mTiny "acc")).stack = [] ∨
      (go mTiny 150 (initState mTiny "acc")).nodes.length > MAX_NODES) :=
  c4_terminates mTiny "acc" 150 (by decide)

/-- C5 (counterexample): `union_with` (the widening used on reachability-map
    entries, same body as `make_contain`) stores both endpoints explicitly
    and does not canonicalize: widening `(unbounded, ≤1]` by the unbounded
    interval over `Fin 3` yields explicit endpoints `some 0` / `some 2`,
    which are the extremes of the domain and hence violate canonical form. -/
theorem c5_counterexample :
    ¬ Bound.Canonical
      (Bound.union_with (D := Fin 3) ⟨none, some 1⟩ ⟨none, none⟩) := by
  unfold Bound.Canonical
  decide

/-- C5 (amended): intervals produced by `from_explicit` — and therefore by
    `intersect`, which builds its result through `from_explicit` — are always
    in canonical form; `make_contain`/`union_with` results are not
    canonicalized (they always carry explicit endpoints), as the
    counterexample shows, so reachability-map entries touched by widening may
    be non-canonical. -/
theorem c5_amended (p : D × D) {a b c : Bound D}
    (h : a.intersect b = some c) :
    Bound.Canonical (Bound.from_explicit p) ∧ Bound.Canonical c := by
  refine ⟨canonical_from_explicit p, ?_⟩
  simp only [Bound.intersect] at h
  by_cases hcond : a.as_explicit.1 > b.as_explicit.2 ∨
      a.as_explicit.2 < b.as_explicit.1
  · rw [if_pos hcond] at h
    cases h
  · rw [if_neg hcond, Option.some.injEq] at h
    rw [← h]
    exact canonical_from_explicit _

/-- C5 (witness). -/
theorem c5_amended_witness :
    Bound.Canonical (Bound.from_explicit ((1 : Fin 3), (1 : Fin 3))) ∧
    Bound.Canonical (⟨some 1, some 1⟩ : Bound (Fin 3)) :=
  c5_amended ((1 : Fin 3), (1 : Fin 3))
    (a := ⟨some 1, some 1⟩) (b := ⟨some 1, some 1⟩) (by decide)

/-- C6 (counterexample): widening is not the identity on its stored
    representation even when `a` already contains `b`: the unbounded interval
    contains itself, yet `make_contain` rewrites it to explicit extreme
    endpoints, a different stored value. -/
theorem c6_counterexample :
    Bound.contains_interval (D := Fin 2) ⟨none, none⟩ ⟨none, none⟩ = true ∧
    Bound.make_contain (D := Fin 2) ⟨none, none⟩ ⟨none, none⟩ ≠
      ⟨none, none⟩ := by
  exact ⟨by decide, by decide⟩

/-- C6 (amended): after `make_contain`, `contains_interval` holds — for all
    operands; and when `a` already contains `b`, the widened interval is
    unchanged up to the explicit form (the same set of values), though its
    stored representation may differ as the counterexample shows. -/
theorem c6_amended (a b : Bound D) :
    (a.make_contain b).contains_interval b = true ∧
    (a.contains_interval b = true →
      (a.make_contain b).as_explicit = a.as_explicit) :=
  ⟨make_contain_contains_interval a b,
   fun h => make_contain_of_contains_interval h⟩

/-- C6 (witness). -/
theorem c6_amended_witness :
    (Bound.make_contain (D := Fin 4)
        ⟨some 1, some 2⟩ ⟨some 1, some 2⟩).contains_interval
      ⟨some 1, some 2⟩ = true ∧
    (Bound.make_contain (D := Fin 4)
        ⟨some 1, some 2⟩ ⟨some 1, some 2⟩).as_explicit =
      (Bound.as_explicit (D := Fin 4) ⟨some 1, some 2⟩) := by
  obtain ⟨h1, h2⟩ :=
    c6_amended (D := Fin 4) ⟨some 1, some 2⟩ ⟨some 1, some 2⟩
  exact ⟨h1, h2 (by decide)⟩

/-- C7 (counterexample): self-intersection is not the stored identity on
    non-canonical intervals: over `Fin 2` the interval with explicit lower
    endpoint `some 0` (= `min(D)`) intersected with itself yields the
    canonicalized unbounded interval, not itself.  (On an empty interval the
    result is even `none`.) -/
theorem c7_counterexample :
    Bound.intersect (D := Fin 2) ⟨some 0, none⟩ ⟨some 0, none⟩ ≠
      some ⟨some 0, none⟩ := by
  decide

/-- C7 (amended): for every non-empty interval in canonical form,
    intersecting it with itself returns `some` of exactly the same stored
    interval. -/
theorem c7_amended (a : Bound D) (hv : a.Valid) (hc : a.Canonical) :
    a.intersect a = some a := by
  unfold Bound.Valid at hv
  simp only [Bound.intersect]
  have hcond : ¬(a.as_explicit.1 > a.as_explicit.2 ∨
      a.as_explicit.2 < a.as_explicit.1) := by
    push_neg
    exact ⟨hv, hv⟩
  rw [if_neg hcond, max_self, min_self, Option.some.injEq]
  unfold Bound.Canonical at hc
  rw [Prod.mk.eta]
  exact hc

/-- C7 (witness). -/
theorem c7_amended_witness :
    Bound.intersect (D := Fin 3) ⟨some 1, none⟩ ⟨some 1, none⟩ =
      some ⟨some 1, none⟩ :=
  c7_amended ⟨some 1, none⟩ (by decide) (by decide)

/-- C8: a frontier configuration with no enabled transition is silently
    dropped: the step function maps an empty frontier to an empty frontier
    (so once empty it stays empty and `exec` returns `false`); concretely, on
    the "not spawn until init" machine of scenario S2 the first `Spawn` from
    `(Accept, false)` enables no transition, and
    `exec("Accept", false, [Spawn, Other, Other, Init])` returns `false`. -/
theorem c8_exec_silent_drop :
    (∀ (D0 I0 : Type) (m : Machine D0 I0) (i : I0), m.transition i [] = []) ∧
    s2Machine.transition Ap.Spawn [⟨"Accept", false⟩] = [] ∧
    s2Machine.exec "Accept" false [Ap.Spawn, Ap.Other, Ap.Other, Ap.Init]
      = false := by
  exact ⟨fun D0 I0 m i => rfl, by decide, by decide⟩

/-- C9: `Monitor::next` consults the prover first.  Whenever both partial
    monitors would step without error, the verdict is `Some(true)` when the
    prover commits (and the falsifier is left untouched), else `Some(false)`
    when the falsifier commits, else `None`; in particular when both sides
    would commit the prover wins with `Some(true)`. -/
theorem c9_prover_first (mon : Monitor D I) (input : I) (b c : Bool)
    (p' f' : PartialMonitor D I)
    (hp : mon.prover.next input = (Except.ok b, p'))
    (hf : mon.falsifier.next input = (Except.ok c, f')) :
    mon.next input =
      (Except.ok (if b then some true else if c then some false else none),
       ⟨p', if b then mon.falsifier else f'⟩) := by
  cases b <;> cases c <;>
    (unfold Monitor.next; rw [hp, hf]; rfl)

/-- C9 (witness): a monitor whose prover and falsifier would both commit
    returns `Some(true)` and leaves the falsifier untouched. -/
theorem c9_witness :
    monBoth.next () = (Except.ok (some true), ⟨pmCommit, pmCommit⟩) :=
  c9_prover_first monBoth () true true pmCommit pmCommit rfl rfl

/-- Step equation of `PartialMonitor::next` when the successor frontier is
    empty. -/
theorem PartialMonitor.next_nil {pm : PartialMonitor D I} {input : I}
    (htr : pm.machine.transition input [pm.state] = []) :
    pm.next input = (Except.error MonitorError.TransitionFailed, pm) := by
  unfold PartialMonitor.next
  rw [htr]

/-- Step equation of `PartialMonitor::next` when the successor frontier is a
    singleton. -/
theorem PartialMonitor.next_single {pm : PartialMonitor D I} {input : I}
    {s : State D} (htr : pm.machine.transition input [pm.state] = [s]) :
    pm.next input =
      (match List.lookup s.location pm.non_empty_states with
       | some bound =>
           if bound.contains s.data then
             (Except.ok false, { pm with state := s })
           else (Except.ok true, pm)
       | none => (Except.ok true, pm)) := by
  unfold PartialMonitor.next
  rw [htr]

/-- Step equation of `PartialMonitor::next`: singleton successor outside the
    reachability map. -/
theorem PartialMonitor.next_single_none {pm : PartialMonitor D I} {input : I}
    {s : State D} (htr : pm.machine.transition input [pm.state] = [s])
    (hlk : List.lookup s.location pm.non_empty_states = none) :
    pm.next input = (Except.ok true, pm) := by
  rw [PartialMonitor.next_single htr, hlk]

/-- Step equation of `PartialMonitor::next`: singleton successor whose
    location is in the reachability map. -/
theorem PartialMonitor.next_single_some {pm : PartialMonitor D I} {input : I}
    {s : State D} {bound : Bound D}
    (htr : pm.machine.transition input [pm.state] = [s])
    (hlk : List.lookup s.location pm.non_empty_states = some bound) :
    pm.next input =
      if bound.contains s.data then
        (Except.ok false, { pm with state := s })
      else (Except.ok true, pm) := by
  rw [PartialMonitor.next_single htr, hlk]

/-- Step equation of `PartialMonitor::next` when the successor frontier has
    at least two configurations. -/
theorem PartialMonitor.next_many {pm : PartialMonitor D I} {input : I}
    {s1 s2 : State D} {r : List (State D)}
    (htr : pm.machine.transition input [pm.state] = s1 :: s2 :: r) :
    pm.next input = (Except.error MonitorError.TransitionFailed, pm) := by
  unfold PartialMonitor.next
  rw [htr]

/-- C10: `PartialMonitor::next` leaves the stored state unchanged on a
    conclusive verdict (`Ok(true)`) and on a `TransitionFailed` error; the
    state is overwritten — with the unique successor configuration — only on
    the inconclusive outcome (`Ok(false)`). -/
theorem c10_state_frame (pm : PartialMonitor D I) (input : I) :
    (∀ pm', pm.next input = (Except.ok true, pm') → pm'.state = pm.state) ∧
    (∀ e pm', pm.next input = (Except.error e, pm') → pm'.state = pm.state) ∧
    (∀ pm', pm.next input = (Except.ok false, pm') →
      ∃ s, pm.machine.transition input [pm.state] = [s] ∧ pm'.state = s) := by
  refine ⟨fun pm' h => ?_, fun e pm' h => ?_, fun pm' h => ?_⟩
  · cases htr : pm.machine.transition input [pm.state] with
    | nil =>
        rw [PartialMonitor.next_nil htr] at h
        injection h with h1 h2
        cases h1
    | cons s rest =>
        cases rest with
        | nil =>
            cases hlk : List.lookup s.location pm.non_empty_states with
            | none =>
                rw [PartialMonitor.next_single_none htr hlk] at h
                injection h with h1 h2
                rw [← h2]
            | some bound =>
                rw [PartialMonitor.next_single_some htr hlk] at h
                cases hcd : bound.contains s.data with
                | false =>
                    rw [hcd] at h
                    injection h with h1 h2
                    rw [← h2]
                | true =>
                    rw [hcd] at h
                    injection h with h1 h2
                    injection h1 with h3
                    cases h3
        | cons s2 r2 =>
            rw [PartialMonitor.next_many htr] at h
            injection h with h1 h2
            cases h1
  · cases htr : pm.machine.transition input [pm.state] with
    | nil =>
        rw [PartialMonitor.next_nil htr] at h
        injection h with h1 h2
        rw [← h2]
    | cons s rest =>
        cases rest with
        | nil =>
            cases hlk : List.lookup s.location pm.non_empty_states with
            | none =>
                rw [PartialMonitor.next_single_none htr hlk] at h
                injection h with h1 h2
                cases h1
            | some bound =>
                rw [PartialMonitor.next_single_some htr hlk] at h
                cases hcd : bound.contains s.data with
                | false =>
                    rw [hcd] at h
                    injection h with h1 h2
                    cases h1
                | true =>
                    rw [hcd] at h
                    injection h with h1 h2
                    cases h1
        | cons s2 r2 =>
            rw [PartialMonitor.next_many htr] at h
            injection h with h1 h2
            rw [← h2]
  · cases htr : pm.machine.transition input [pm.state] with
    | nil =>
        rw [PartialMonitor.next_nil htr] at h
        injection h with h1 h2
        cases h1
    | cons s rest =>
        cases rest with
        | nil =>
            cases hlk : List.lookup s.location pm.non_empty_states with
            | none =>
                rw [PartialMonitor.next_single_none htr hlk] at h
                injection h with h1 h2
                injection h1 with h3
                cases h3
            | some bound =>
                rw [PartialMonitor.next_single_some htr hlk] at h
                cases hcd : bound.contains s.data with
                | false =>
                    rw [hcd] at h
                    injection h with h1 h2
                    injection h1 with h3
                    cases h3
                | true =>
                    rw [hcd] at h
                    injection h with h1 h2
                    refine ⟨s, rfl, ?_⟩
                    rw [← h2]
        | cons s2 r2 =>
            rw [PartialMonitor.next_many htr] at h
            injection h with h1 h2
            cases h1

/-- C10 (witness): the three outcomes exercised on concrete partial
    monitors: a committing step and a failing step leave the state unchanged;
    an inconclusive step stores the successor. -/
theorem c10_witness :
    (pmCommit.next ()).2.state = pmCommit.state ∧
    (pmFail.next ()).2.state = pmFail.state ∧
    (pmStay.next ()).2.state = ⟨"l", 0⟩ := by
  refine ⟨(c10_state_frame pmCommit ()).1 (pmCommit.next ()).2 rfl,
    (c10_state_frame pmFail ()).2.1 MonitorError.TransitionFailed
      (pmFail.next ()).2 rfl, ?_⟩
  obtain ⟨s, hs1, hs2⟩ :=
    (c10_state_frame pmStay ()).2.2 (pmStay.next ()).2 rfl
  have h3 : pmStay.machine.transition () [pmStay.state] =
      [⟨"l", 0⟩] := rfl
  rw [hs1] at h3
  injection h3 with h4 h5
  rw [hs2, h4]

end Efsm
